import Mathlib

/-!
Verification development for the Blurred Clustering algorithm
(`src/RecoAlg/BlurredClusteringAlg.h`, `cluster::BlurredClusteringAlg`).

The repository ships only the class declaration; every method body lives in
an implementation file that is not part of the source tree.  All component
behaviour below is therefore modelled from the specification (`spec.md`,
sections 3-4 and 7-8), keeping the declared method names.  Detector charges
and image densities (C++ `double`) are modelled as exact rationals `ℚ`;
the Gaussian kernel, whose cells involve `exp`, is modelled over `ℝ`.
-/

namespace BlurredClustering

/-! ## Generic list-sum bridges -/

/-- Sum of a mapped range as a `Finset` sum. -/
theorem sum_map_range {M : Type} [AddCommMonoid M] (f : ℕ → M) (n : ℕ) :
    ((List.range n).map f).sum = ∑ i in Finset.range n, f i := by
  induction n with
  | zero => simp
  | succ n ih => simp [List.range_succ, Finset.sum_range_succ, ih]

/-- A list's sum equals the `Finset` sum of its `getD` entries. -/
theorem list_sum_eq_getD {M : Type} [AddCommMonoid M] (l : List M) :
    l.sum = ∑ i in Finset.range l.length, l.getD i 0 := by
  induction l with
  | nil => simp
  | cons a t ih =>
      simp only [List.sum_cons, List.length_cons, Finset.sum_range_succ']
      simp [ih, List.getD, add_comm]

/-- `getD` through a `map` over `List.range`. -/
theorem getD_map_range {M : Type} (f : ℕ → M) (n i : ℕ) (d : M) (hi : i < n) :
    ((List.range n).map f).getD i d = f i := by
  rw [List.getD_eq_getElem?_getD, List.getElem?_map, List.getElem?_range hi]
  rfl

/-! ## Data model: hits and images (spec §3)

Modelled from the spec: a `Hit` is an external entity exposing a global wire
coordinate, a tick and a charge; the core holds only references, so hits are
compared by their data and membership in the input collection stands for
reference sharing. -/

structure Hit where
  wire : ℤ
  tick : ℤ
  charge : ℚ
deriving DecidableEq

/-- Modelled from the spec (§3 Image): a dense 2D array of density values
indexed by local (wire, tick), with the origin offset (lower wire, lower
tick) translating local indices to global coordinates. -/
structure Image where
  lowWire : ℤ
  lowTick : ℤ
  data : List (List ℚ)

/-- Image value at integer coordinates; out-of-range reads are zero
(spec §4.3: out-of-bounds image reads are treated as zero). -/
def imageVal (img : List (List ℚ)) (x y : ℤ) : ℚ :=
  if 0 ≤ x ∧ 0 ≤ y then (img.getD x.toNat []).getD y.toNat 0 else 0

/-! ## Image Builder (spec §4.1, header `ConvertRecobHitsToTH2`, `fHitMap`) -/

/-- Modelled from the spec (§3 Hit Map, §4.1): the `fHitMap` member,
`map<int, map<int, Ptr<Hit>>>`, maps global wire then tick to the owning
hit; later insertions overwrite earlier ones (last-write-wins). -/
def buildHitMap (hits : List Hit) : ℤ → ℤ → Option Hit :=
  hits.foldl (fun m h => fun w t => if w = h.wire ∧ t = h.tick then some h else m w t)
    (fun _ _ => none)

/-- Least element of a list of integers with default 0. -/
def listMin (l : List ℤ) : ℤ :=
  match l with
  | [] => 0
  | a :: t => t.foldl min a

/-- Greatest element of a list of integers with default 0. -/
def listMax (l : List ℤ) : ℤ :=
  match l with
  | [] => 0
  | a :: t => t.foldl max a

/-- Modelled from the spec (§4.1, header `ConvertRecobHitsToTH2`): size the
grid by the bounding box of all hits, expanded by the blur radius on each
side; each hit's charge is accumulated (summed) into its bin.  The same
construction step also fills the companion hit map (the member `fHitMap`),
returned as the second component.  Empty input produces an empty image. -/
def ConvertRecobHitsToTH2 (blurWire blurTick : ℕ) (hits : List Hit) :
    Image × (ℤ → ℤ → Option Hit) :=
  match hits with
  | [] => (⟨0, 0, []⟩, buildHitMap hits)
  | _ =>
      let lw : ℤ := listMin (hits.map Hit.wire) - blurWire
      let uw : ℤ := listMax (hits.map Hit.wire) + blurWire
      let lt : ℤ := listMin (hits.map Hit.tick) - blurTick
      let ut : ℤ := listMax (hits.map Hit.tick) + blurTick
      (⟨lw, lt,
        (List.range (uw + 1 - lw).toNat).map fun x : ℕ =>
          (List.range (ut + 1 - lt).toNat).map fun y : ℕ =>
            ((hits.filter fun h => h.wire = lw + (x : ℤ) ∧ h.tick = lt + (y : ℤ)).map
              Hit.charge).sum⟩,
        buildHitMap hits)

/-! ## Convolver (spec §4.3, header `Convolve`) -/

/-- Kernel cell read with zero default. -/
def kAt (kernel : List (List ℚ)) (i j : ℕ) : ℚ :=
  (kernel.getD i []).getD j 0

/-- One output bin of the convolution: sum of `image[bin + offset] *
kernel[offset]` over the kernel footprint `(2*bw+1) × (2*bt+1)`, kernel
centred at `(bw, bt)`, out-of-bounds image reads treated as zero. -/
def convVal (img : List (List ℚ)) (kernel : List (List ℚ)) (bw bt : ℕ) (x y : ℕ) : ℚ :=
  ∑ i in Finset.range (2 * bw + 1), ∑ j in Finset.range (2 * bt + 1),
    kAt kernel i j * imageVal img ((x : ℤ) + i - bw) ((y : ℤ) + j - bt)

/-- Modelled from the spec (§4.3, header `Convolve`): standard 2D discrete
convolution producing a new image of exactly the input's dimensions. -/
def Convolve (img : List (List ℚ)) (kernel : List (List ℚ)) (bw bt : ℕ) : List (List ℚ) :=
  (List.range img.length).map fun x =>
    (List.range (img.getD x []).length).map fun y => convVal img kernel bw bt x y

/-- Total density of an image: sum over all bins. -/
def totalSum (img : List (List ℚ)) : ℚ :=
  (img.map List.sum).sum

/-! ## Kernel Cache (spec §4.2, header `GaussianBlur`, `fLastKernel`) -/

/-- Modelled from the spec (§4.2, the body of the header's `GaussianBlur`
kernel construction): the `(2*bw+1) × (2*bt+1)` Gaussian kernel; cell
(i, j) holds `exp(-((i-cx)^2 + (j-cy)^2) / (2*sigma^2))` with centre
`(cx, cy) = (bw, bt)`, normalised by the sum of all cells so the weights
sum to 1. -/
noncomputable def makeKernel (bw bt : ℕ) (sigma : ℝ) : List (List ℝ) :=
  (List.range (2 * bw + 1)).map fun i : ℕ =>
    (List.range (2 * bt + 1)).map fun j : ℕ =>
      Real.exp (-(((i : ℝ) - bw) ^ 2 + ((j : ℝ) - bt) ^ 2) / (2 * sigma ^ 2)) /
        ∑ a in Finset.range (2 * bw + 1), ∑ b in Finset.range (2 * bt + 1),
          Real.exp (-(((a : ℝ) - bw) ^ 2 + ((b : ℝ) - bt) ^ 2) / (2 * sigma ^ 2))

/-- Sum of all weights of a (2D) kernel. -/
def kernelTotal {M : Type} [AddCommMonoid M] (k : List (List M)) : M :=
  (k.map List.sum).sum

/-- Modelled from the spec (§4.2, the caching logic of the header's
`GaussianBlur`): the cache state is the tuple of the members
`fLastBlurWire`, `fLastBlurTick`, `fLastSigma` and `fLastKernel` (header
lines 170-173); if the three parameters match the previously cached set,
return the cached kernel unchanged; otherwise compute a new kernel and
replace the cache. -/
noncomputable def getKernel (c : ℕ × ℕ × ℝ × List (List ℝ)) (bw bt : ℕ) (sigma : ℝ) :
    (ℕ × ℕ × ℝ × List (List ℝ)) × List (List ℝ) :=
  letI : Decidable (sigma = c.2.2.1) := Classical.propDecidable _
  if bw = c.1 ∧ bt = c.2.1 ∧ sigma = c.2.2.1 then
    (c, c.2.2.2)
  else
    ((bw, bt, sigma, makeKernel bw bt sigma), makeKernel bw bt sigma)

/-! ## Cluster Extractor (spec §4.4, header `FindClusters`) -/

/-- Image height (tick extent); rows of a built image all share it. -/
def height (img : List (List ℚ)) : ℕ :=
  (img.getD 0 []).length

/-- Number of linear bins of an image. -/
def numBins (img : List (List ℚ)) : ℕ :=
  img.length * height img

/-- Value of a linear bin (row-major: `bin = wire_local * height + tick_local`,
spec §3 Bin). -/
def binVal (img : List (List ℚ)) (b : ℕ) : ℚ :=
  (img.getD (b / height img) []).getD (b % height img) 0

/-- Extraction parameters: `fMinSeed`, `fClusterWireDistance`,
`fClusterTickDistance`, `fNeighboursThreshold`, `fMinSize`
(header lines 154-161). -/
structure ExtractParams where
  minSeed : ℚ
  wireDist : ℕ
  tickDist : ℕ
  nbrThreshold : ℕ
  minSize : ℕ

/-- Two bins lie within the clustering window (a wire distance × tick
distance rectangle, spec §4.4). -/
def inWindow (h : ℕ) (wd td : ℕ) (a b : ℕ) : Prop :=
  ((a / h : ℤ) - (b / h : ℤ)).natAbs ≤ wd ∧ ((a % h : ℤ) - (b % h : ℤ)).natAbs ≤ td

instance (h wd td a b : ℕ) : Decidable (inWindow h wd td a b) := by
  unfold inWindow; infer_instance

/-- Number of already-admitted cluster bins within the window of `b`
(header `NumNeighbours`). -/
def NumNeighbours (h : ℕ) (p : ExtractParams) (cluster : List ℕ) (b : ℕ) : ℕ :=
  (cluster.filter fun c => decide (inWindow h p.wireDist p.tickDist c b)).length

/-- Modelled from the spec (§4.4): a candidate bin joins the growing region
when it qualifies (blurred value above the seed threshold), is not yet in
any cluster, lies within the window of an admitted bin, and has at least
the neighbour-threshold count of admitted bins nearby (noise rejection). -/
def growStep (img : List (List ℚ)) (p : ExtractParams) (used cluster : List ℕ) : List ℕ :=
  (List.range (numBins img)).filter fun b =>
    decide (p.minSeed < binVal img b ∧ b ∉ used ∧ b ∉ cluster ∧
      (∃ c ∈ cluster, inWindow (height img) p.wireDist p.tickDist c b) ∧
      p.nbrThreshold ≤ NumNeighbours (height img) p cluster b)

/-- Region growth to a fixed point, fuel-bounded by the bin count. -/
def growRegion (img : List (List ℚ)) (p : ExtractParams) (used : List ℕ) :
    ℕ → List ℕ → List ℕ
  | 0, cluster => cluster
  | fuel + 1, cluster =>
      let cand := growStep img p used cluster
      if cand = [] then cluster else growRegion img p used fuel (cluster ++ cand)

/-- Modelled from the spec (§4.4): scan the bins; from each unvisited
qualifying seed grow a region, mark all its bins used, and retain it only
if its bin count reaches the minimum cluster size.  (The spec's ambiguous
extra minimum-neighbour-floor discard only removes further regions and is
not modelled.) -/
def extractLoop (img : List (List ℚ)) (p : ExtractParams) :
    List ℕ → List ℕ → List (List ℕ) → List (List ℕ)
  | [], _, acc => acc
  | s :: rest, used, acc =>
      if s ∈ used ∨ ¬ p.minSeed < binVal img s then extractLoop img p rest used acc
      else
        let c := growRegion img p used (numBins img) [s]
        if p.minSize ≤ c.length then extractLoop img p rest (used ++ c) (acc ++ [c])
        else extractLoop img p rest (used ++ c) acc

/-- Modelled from the spec (§4.4, header `FindClusters`): density-thresholded
connected-region extraction over a blurred image; the returned count is the
length of the cluster list. -/
def FindClusters (img : List (List ℚ)) (p : ExtractParams) : List (List ℕ) :=
  extractLoop img p (List.range (numBins img)) [] []

/-! ## Cluster Merger (spec §4.5, header `fMinMergeClusterSize`,
`fMergingThreshold`)

Modelled from the spec: the principal-component linearity score of a
combined bin set is abstracted as a Boolean test `linear` (the comparison
of the PCA eigenvalue ratio against `fMergingThreshold` is external
real-valued mathematics); the merge strategy itself — pairwise tests among
the original eligible clusters, closed transitively union-find style — is
what is modelled. -/

/-- Two original clusters are merge-connected when their combined bin set
passes the linearity test (in either concatenation order). -/
def mergeEdge (linear : List ℕ → Bool) (elig : List (List ℕ)) (i j : ℕ) : Bool :=
  linear (elig.getD i [] ++ elig.getD j []) || linear (elig.getD j [] ++ elig.getD i [])

/-- One closure step: adjoin every cluster index connected to the set. -/
def reachStep (n : ℕ) (e : ℕ → ℕ → Bool) (S : List ℕ) : List ℕ :=
  S ++ (List.range n).filter fun j => decide (j ∉ S) && S.any fun k => e k j

/-- Indices transitively merge-connected to `i` (fuel `n` saturates). -/
def reach (n : ℕ) (e : ℕ → ℕ → Bool) (i : ℕ) : List ℕ :=
  Nat.iterate (reachStep n e) n [i]

/-- Modelled from the spec (§4.5): clusters at or above the merge-size
threshold are tested pairwise and merged along the transitive closure of
accepted pairs (one output per connected component, emitted at the
component's least index); clusters below the threshold pass through
unmodified. -/
def mergeClusters (linear : List ℕ → Bool) (minMerge : ℕ) (cs : List (List ℕ)) :
    List (List ℕ) :=
  let elig := cs.filter fun c => decide (minMerge ≤ c.length)
  let n := elig.length
  let e := mergeEdge linear elig
  (cs.filter fun c => decide (c.length < minMerge)) ++
    (List.range n).filterMap fun i =>
      if ∀ j ∈ reach n e i, i ≤ j then
        some (((List.range n).filter fun j => decide (j ∈ reach n e i)).map
          fun j => elig.getD j []).flatten
      else none

/-! ## Bin/Hit Mapper (spec §4.6, header `ConvertBinsToClusters`,
`ConvertBinToRecobHit`) -/

/-- Modelled from the spec (§4.6, header `ConvertBinToRecobHit`): derive the
bin's global (wire, tick) coordinate and look it up in the hit map. -/
def ConvertBinToRecobHit (img : Image) (hitMap : ℤ → ℤ → Option Hit) (b : ℕ) : Option Hit :=
  hitMap (img.lowWire + (b / height img.data : ℕ)) (img.lowTick + (b % height img.data : ℕ))

/-- Modelled from the spec (§4.6, header `ConvertBinsToClusters`): each
bin-cluster becomes the collection of hits found at its bins' keys; bins
with no originating hit are silently skipped. -/
def ConvertBinsToClusters (img : Image) (hitMap : ℤ → ℤ → Option Hit)
    (allClusterBins : List (List ℕ)) : List (List Hit) :=
  allClusterBins.map fun c => c.filterMap fun b => ConvertBinToRecobHit img hitMap b

/-! ## The pipeline (spec §2 data flow)

Modelled from the spec: hits → Image Builder → Convolver → Cluster
Extractor → Cluster Merger → Bin/Hit Mapper.  The blur kernel and the
merger's linearity test are parameters (their real-valued construction is
modelled separately by `makeKernel`; the convolution itself runs on exact
rationals). -/
def FullPipeline (kernel : List (List ℚ)) (bw bt : ℕ) (p : ExtractParams)
    (linear : List ℕ → Bool) (minMerge : ℕ) (hits : List Hit) : List (List Hit) :=
  let built := ConvertRecobHitsToTH2 bw bt hits
  let blurred := Convolve built.1.data kernel bw bt
  ConvertBinsToClusters built.1 built.2
    (mergeClusters linear minMerge (FindClusters blurred p))

/-! ## Theorems -/

/-- Normalising any positive cell grid by its total makes the weights sum
to 1 (stated over an arbitrary linear ordered field). -/
theorem kernelTotal_norm {K : Type} [LinearOrderedField K] (m n : ℕ) (f : ℕ → ℕ → K)
    (hm : 0 < m) (hn : 0 < n) (hf : ∀ i j, 0 < f i j) :
    kernelTotal ((List.range m).map fun i => (List.range n).map fun j =>
      f i j / ∑ a in Finset.range m, ∑ b in Finset.range n, f a b) = 1 := by
  unfold kernelTotal
  rw [List.map_map]
  have h1 : (List.sum ∘ fun i =>
      (List.range n).map fun j =>
        f i j / ∑ a in Finset.range m, ∑ b in Finset.range n, f a b) =
      fun i => ∑ j in Finset.range n,
        f i j / ∑ a in Finset.range m, ∑ b in Finset.range n, f a b := by
    funext i
    exact sum_map_range _ _
  rw [h1, sum_map_range]
  have h2 : ∑ i in Finset.range m, ∑ j in Finset.range n,
      f i j / ∑ a in Finset.range m, ∑ b in Finset.range n, f a b =
      (∑ i in Finset.range m, ∑ j in Finset.range n, f i j) /
        ∑ a in Finset.range m, ∑ b in Finset.range n, f a b := by
    rw [Finset.sum_div]
    refine Finset.sum_congr rfl fun i _ => ?_
    rw [Finset.sum_div]
  rw [h2]
  have hpos : 0 < ∑ a in Finset.range m, ∑ b in Finset.range n, f a b := by
    apply Finset.sum_pos
    · intro i _
      exact Finset.sum_pos (fun j _ => hf i j) (Finset.nonempty_range_iff.mpr (by omega))
    · exact Finset.nonempty_range_iff.mpr (by omega)
  exact div_self (ne_of_gt hpos)

/-- C2: for all blur parameters (blurWire, blurTick, sigma), the Gaussian
kernel generated by the kernel-construction step of `GaussianBlur` — cell
(i, j) holding `exp(-((i-cx)^2 + (j-cy)^2) / (2*sigma^2))` before
normalisation, with (cx, cy) the kernel centre — has weights summing
exactly to 1. -/
theorem makeKernel_weights_sum_to_one (bw bt : ℕ) (sigma : ℝ) :
    kernelTotal (makeKernel bw bt sigma) = 1 := by
  unfold makeKernel
  exact kernelTotal_norm (2 * bw + 1) (2 * bt + 1) _ (by omega) (by omega)
    (fun i j => Real.exp_pos _)

/-- C3: the kernel cache is a pure performance optimisation with no
observable effect.  For a valid cache (stored kernel generated by stored
parameters): the returned kernel always equals the kernel freshly computed
from the requested parameters (so reuse is weight-identical to
regeneration, independent of any image); when the parameters match the
last request the cache is left untouched and its kernel reused verbatim (no
regeneration); when they differ the kernel is regenerated; and the cache
stays valid. -/
theorem getKernel_cache_transparent (c : ℕ × ℕ × ℝ × List (List ℝ)) (bw bt : ℕ)
    (sigma : ℝ) (h : c.2.2.2 = makeKernel c.1 c.2.1 c.2.2.1) :
    (getKernel c bw bt sigma).2 = makeKernel bw bt sigma ∧
    (getKernel c bw bt sigma).1.2.2.2 =
      makeKernel (getKernel c bw bt sigma).1.1 (getKernel c bw bt sigma).1.2.1
        (getKernel c bw bt sigma).1.2.2.1 ∧
    ((bw = c.1 ∧ bt = c.2.1 ∧ sigma = c.2.2.1) →
      getKernel c bw bt sigma = (c, c.2.2.2)) ∧
    (¬ (bw = c.1 ∧ bt = c.2.1 ∧ sigma = c.2.2.1) →
      getKernel c bw bt sigma = ((bw, bt, sigma, makeKernel bw bt sigma),
        makeKernel bw bt sigma)) := by
  unfold getKernel
  by_cases hc : bw = c.1 ∧ bt = c.2.1 ∧ sigma = c.2.2.1
  · rw [if_pos hc]
    obtain ⟨h1, h2, h3⟩ := hc
    refine ⟨?_, h, fun _ => rfl, fun hn => absurd ⟨h1, h2, h3⟩ hn⟩
    rw [h, h1, h2, h3]
  · rw [if_neg hc]
    exact ⟨rfl, rfl, fun hm => absurd hm hc, fun _ => rfl⟩

/-- Witness for C3: the theorem applied to a concrete valid cache, with a
matching request, so the cached kernel is reused verbatim and equals the
freshly generated one. -/
theorem getKernel_cache_transparent_witness :
    (getKernel (1, 1, 1, makeKernel 1 1 1) 1 1 1).2 = makeKernel 1 1 1 ∧
    getKernel (1, 1, 1, makeKernel 1 1 1) 1 1 1 =
      ((1, 1, 1, makeKernel 1 1 1), makeKernel 1 1 1) := by
  have h := getKernel_cache_transparent (1, 1, 1, makeKernel 1 1 1) 1 1 1 rfl
  exact ⟨h.1, h.2.2.1 ⟨rfl, rfl, rfl⟩⟩

/-- C4: convolution produces an output of exactly the input image's
dimensions; each in-range output bin is the sum of `image[bin + offset] *
kernel[offset]` over the kernel footprint (`convVal`); and every
out-of-bounds image read yields zero, so no out-of-range access occurs. -/
theorem Convolve_safe (img kernel : List (List ℚ)) (bw bt : ℕ) :
    (Convolve img kernel bw bt).length = img.length ∧
    (∀ x : ℕ, ((Convolve img kernel bw bt).getD x []).length = (img.getD x []).length) ∧
    (∀ x y : ℕ, x < img.length → y < (img.getD x []).length →
      ((Convolve img kernel bw bt).getD x []).getD y 0 = convVal img kernel bw bt x y) ∧
    (∀ x y : ℤ,
      ¬ (0 ≤ x ∧ x.toNat < img.length ∧ 0 ≤ y ∧ y.toNat < (img.getD x.toNat []).length) →
      imageVal img x y = 0) := by
  refine ⟨by simp [Convolve], ?_, ?_, ?_⟩
  · intro x
    by_cases hx : x < img.length
    · rw [Convolve, getD_map_range _ _ _ _ hx]
      simp
    · push_neg at hx
      rw [List.getD_eq_default _ _ (by simpa [Convolve] using hx),
        List.getD_eq_default _ _ hx]
  · intro x y hx hy
    rw [Convolve, getD_map_range _ _ _ _ hx, getD_map_range _ _ _ _ hy]
  · intro x y hxy
    unfold imageVal
    split
    · rename_i hpos
      obtain ⟨hx0, hy0⟩ := hpos
      by_cases hx : x.toNat < img.length
      · apply List.getD_eq_default
        by_contra hlen
        push_neg at hlen
        exact hxy ⟨hx0, hx, hy0, hlen⟩
      · push_neg at hx
        rw [List.getD_eq_default _ _ hx]
        simp
    · rfl

/-- Witness for C4: the theorem applied to a concrete one-bin image and
kernel, exercising the in-range formula and an out-of-bounds read. -/
theorem Convolve_safe_witness :
    ((Convolve [[(5 : ℚ)]] [[(1 : ℚ)]] 0 0).getD 0 []).getD 0 0 =
      convVal [[(5 : ℚ)]] [[(1 : ℚ)]] 0 0 0 0 ∧
    imageVal [[(5 : ℚ)]] (-1) 0 = 0 := by
  constructor
  · exact (Convolve_safe [[(5 : ℚ)]] [[(1 : ℚ)]] 0 0).2.2.1 0 0 (by decide) (by decide)
  · exact (Convolve_safe [[(5 : ℚ)]] [[(1 : ℚ)]] 0 0).2.2.2 (-1) 0 (by decide)

/-- Every bin admitted by a growth step qualifies (blurred value above the
seed threshold) and was not previously used. -/
theorem growStep_mem {img : List (List ℚ)} {p : ExtractParams} {used cluster : List ℕ}
    {b : ℕ} (hb : b ∈ growStep img p used cluster) :
    p.minSeed < binVal img b ∧ b ∉ used := by
  simp only [growStep, List.mem_filter, decide_eq_true_eq] at hb
  exact ⟨hb.2.1, hb.2.2.1⟩

/-- Every bin of a grown region is the seed region itself or a fresh
qualifying bin. -/
theorem growRegion_mem {img : List (List ℚ)} {p : ExtractParams} {used : List ℕ}
    {fuel : ℕ} {cluster : List ℕ} {b : ℕ}
    (hb : b ∈ growRegion img p used fuel cluster) :
    b ∈ cluster ∨ (p.minSeed < binVal img b ∧ b ∉ used) := by
  induction fuel generalizing cluster with
  | zero => exact Or.inl hb
  | succ fuel ih =>
      rw [growRegion] at hb
      split at hb
      · exact Or.inl hb
      · rcases ih hb with hc | hq
        · rcases List.mem_append.mp hc with hc | hc
          · exact Or.inl hc
          · exact Or.inr (growStep_mem hc)
        · exact Or.inr hq

/-- Main loop invariant of the cluster extractor: accumulated clusters hold
only qualifying bins recorded as used, meet the size floor, and are
pairwise disjoint; all three properties persist to the final output. -/
theorem extractLoop_inv (img : List (List ℚ)) (p : ExtractParams) :
    ∀ (seeds used : List ℕ) (acc : List (List ℕ)),
    (∀ c ∈ acc, ∀ b ∈ c, p.minSeed < binVal img b ∧ b ∈ used) →
    (∀ c ∈ acc, p.minSize ≤ c.length) →
    acc.Pairwise (fun c d => ∀ b ∈ c, b ∉ d) →
    (∀ c ∈ extractLoop img p seeds used acc,
      (∀ b ∈ c, p.minSeed < binVal img b) ∧ p.minSize ≤ c.length) ∧
    (extractLoop img p seeds used acc).Pairwise (fun c d => ∀ b ∈ c, b ∉ d) := by
  intro seeds
  induction seeds with
  | nil =>
      intro used acc hqual hsize hdisj
      exact ⟨fun c hc => ⟨fun b hb => (hqual c hc b hb).1, hsize c hc⟩, hdisj⟩
  | cons s rest ih =>
      intro used acc hqual hsize hdisj
      rw [extractLoop]
      split
      · exact ih used acc hqual hsize hdisj
      · rename_i hguard
        push_neg at hguard
        obtain ⟨hsu, hsq⟩ := hguard
        have hgrow : ∀ b ∈ growRegion img p used (numBins img) [s],
            p.minSeed < binVal img b ∧ b ∉ used := by
          intro b hb
          rcases growRegion_mem hb with hb1 | hb2
          · rw [List.mem_singleton] at hb1
            subst hb1
            exact ⟨hsq, hsu⟩
          · exact hb2
        have hqual' : ∀ c ∈ acc, ∀ b ∈ c,
            p.minSeed < binVal img b ∧ b ∈ used ++ growRegion img p used (numBins img) [s] := by
          intro c hc b hb
          exact ⟨(hqual c hc b hb).1, List.mem_append_left _ (hqual c hc b hb).2⟩
        by_cases hbig : p.minSize ≤ (growRegion img p used (numBins img) [s]).length
        · simp only [if_pos hbig]
          apply ih
          · intro c hc b hb
            rcases List.mem_append.mp hc with hc | hc
            · exact hqual' c hc b hb
            · rw [List.mem_singleton] at hc
              subst hc
              exact ⟨(hgrow b hb).1, List.mem_append_right _ hb⟩
          · intro c hc
            rcases List.mem_append.mp hc with hc | hc
            · exact hsize c hc
            · rw [List.mem_singleton] at hc
              subst hc
              exact hbig
          · rw [List.pairwise_append]
            refine ⟨hdisj, List.pairwise_singleton _ _, ?_⟩
            intro d hd c hc
            rw [List.mem_singleton] at hc
            subst hc
            intro b hb hbc
            exact (hgrow b hbc).2 (hqual d hd b hb).2
        · simp only [if_neg hbig]
          exact ih _ acc hqual' hsize hdisj

/-- C1: for every extraction run of `FindClusters` on a blurred image, every
bin of every output cluster qualifies (its blurred value exceeds the
minimum seed density `fMinSeed`), and the output clusters are pairwise
disjoint: no bin appears in two distinct output clusters. -/
theorem FindClusters_partition (img : List (List ℚ)) (p : ExtractParams) :
    (∀ c ∈ FindClusters img p, ∀ b ∈ c, p.minSeed < binVal img b) ∧
    (FindClusters img p).Pairwise (fun c d => ∀ b ∈ c, b ∉ d) := by
  have h := extractLoop_inv img p (List.range (numBins img)) [] []
    (by simp) (by simp) (by simp)
  exact ⟨fun c hc b hb => (h.1 c hc).1 b hb, h.2⟩

/-- Witness for C1: on a concrete 2×2 blurred image the extractor returns
the single cluster `[0, 1, 2, 3]`, whose bin 0 indeed exceeds the seed
threshold. -/
theorem FindClusters_partition_witness :
    (0 : ℚ) < binVal [[1, 1], [1, 1]] 0 :=
  (FindClusters_partition [[1, 1], [1, 1]] ⟨0, 1, 1, 0, 1⟩).1
    [0, 1, 2, 3] (by decide) 0 (by decide)

/-- A set is contained in its own closure step. -/
theorem subset_reachStep (n : ℕ) (e : ℕ → ℕ → Bool) (S : List ℕ) :
    S ⊆ reachStep n e S :=
  fun _ hx => List.mem_append_left _ hx

/-- Membership is preserved by iterating the closure step. -/
theorem mem_iterate_reachStep (n : ℕ) (e : ℕ → ℕ → Bool) (k : ℕ) :
    ∀ (S : List ℕ) (x : ℕ), x ∈ S → x ∈ (reachStep n e)^[k] S := by
  induction k with
  | zero => intro S x hx; simpa using hx
  | succ k ih =>
      intro S x hx
      rw [Function.iterate_succ_apply]
      exact ih _ x (subset_reachStep n e S hx)

/-- Every index reaches itself. -/
theorem mem_reach_self (n : ℕ) (e : ℕ → ℕ → Bool) (i : ℕ) : i ∈ reach n e i :=
  mem_iterate_reachStep n e n [i] i (List.mem_singleton_self i)

/-- A list element's length is at most the flattened length. -/
theorem length_le_flatten {l : List ℕ} {L : List (List ℕ)} (h : l ∈ L) :
    l.length ≤ L.flatten.length := by
  rw [List.length_flatten]
  exact List.single_le_sum (fun x _ => Nat.zero_le x) _ (List.mem_map_of_mem _ h)

/-- Merging never shrinks a cluster below any size floor the inputs meet. -/
theorem mergeClusters_length_floor (linear : List ℕ → Bool) (minMerge m : ℕ)
    (cs : List (List ℕ)) (h : ∀ c ∈ cs, m ≤ c.length) :
    ∀ c ∈ mergeClusters linear minMerge cs, m ≤ c.length := by
  intro c hc
  unfold mergeClusters at hc
  rcases List.mem_append.mp hc with hc | hc
  · exact h c (List.mem_of_mem_filter hc)
  · rcases List.mem_filterMap.mp hc with ⟨i, hi, heq⟩
    split at heq
    · have hlen : i < (cs.filter fun c => decide (minMerge ≤ c.length)).length :=
        List.mem_range.mp hi
      set elig := cs.filter fun c => decide (minMerge ≤ c.length) with helig
      have hmem : elig.getD i [] ∈ elig := by
        rw [List.getD_eq_getElem?_getD, List.getElem?_eq_getElem hlen]
        exact List.getElem_mem _
      have hcs : elig.getD i [] ∈ cs := List.mem_of_mem_filter hmem
      have hstep : elig.getD i [] ∈
          ((List.range elig.length).filter fun j =>
            decide (j ∈ reach elig.length (mergeEdge linear elig) i)).map
            fun j => elig.getD j [] := by
        apply List.mem_map_of_mem
        rw [List.mem_filter]
        exact ⟨List.mem_range.mpr hlen, decide_eq_true (mem_reach_self _ _ i)⟩
      have := length_le_flatten hstep
      rw [Option.some_inj.mp heq] at this
      exact le_trans (h _ hcs) this
    · exact absurd heq (by simp)

/-- C6: after extraction and merging, every surviving output cluster has at
least `fMinSize` bins — extraction discards grown regions below the floor,
and merging (which only concatenates eligible clusters or passes small
ones through) preserves it. -/
theorem postMerge_size_floor (img : List (List ℚ)) (p : ExtractParams)
    (linear : List ℕ → Bool) (minMerge : ℕ) :
    ∀ c ∈ mergeClusters linear minMerge (FindClusters img p), p.minSize ≤ c.length := by
  apply mergeClusters_length_floor
  intro c hc
  exact ((extractLoop_inv img p (List.range (numBins img)) [] []
    (by simp) (by simp) (by simp)).1 c hc).2

/-- Witness for C6: on the concrete 2×2 image the merged output's only
cluster has at least the configured minimum size. -/
theorem postMerge_size_floor_witness :
    (1 : ℕ) ≤ ([0, 1, 2, 3] : List ℕ).length :=
  postMerge_size_floor [[1, 1], [1, 1]] ⟨0, 1, 1, 0, 1⟩ (fun _ => false) 5
    [0, 1, 2, 3] (by decide)

/-- Folded minimum is below its initial value. -/
theorem foldl_min_le_init (t : List ℤ) (x : ℤ) : t.foldl min x ≤ x := by
  induction t generalizing x with
  | nil => exact le_refl x
  | cons a t ih => exact le_trans (ih (min x a)) (min_le_left x a)

/-- Folded minimum is below every traversed element. -/
theorem foldl_min_le_mem (t : List ℤ) (x : ℤ) : ∀ a ∈ t, t.foldl min x ≤ a := by
  induction t generalizing x with
  | nil => intro a ha; cases ha
  | cons b t ih =>
      intro a ha
      rcases List.mem_cons.mp ha with rfl | ha
      · exact le_trans (foldl_min_le_init t (min x a)) (min_le_right x a)
      · exact ih (min x b) a ha

/-- `listMin` bounds every element from below. -/
theorem listMin_le (l : List ℤ) (a : ℤ) (ha : a ∈ l) : listMin l ≤ a := by
  cases l with
  | nil => cases ha
  | cons x t =>
      rcases List.mem_cons.mp ha with rfl | ha
      · exact foldl_min_le_init t a
      · exact foldl_min_le_mem t x a ha

/-- Folded maximum is above its initial value. -/
theorem init_le_foldl_max (t : List ℤ) (x : ℤ) : x ≤ t.foldl max x := by
  induction t generalizing x with
  | nil => exact le_refl x
  | cons a t ih => exact le_trans (le_max_left x a) (ih (max x a))

/-- Folded maximum is above every traversed element. -/
theorem mem_le_foldl_max (t : List ℤ) (x : ℤ) : ∀ a ∈ t, a ≤ t.foldl max x := by
  induction t generalizing x with
  | nil => intro a ha; cases ha
  | cons b t ih =>
      intro a ha
      rcases List.mem_cons.mp ha with rfl | ha
      · exact le_trans (le_max_right x a) (init_le_foldl_max t (max x a))
      · exact ih (max x b) a ha

/-- `listMax` bounds every element from above. -/
theorem le_listMax (l : List ℤ) (a : ℤ) (ha : a ∈ l) : a ≤ listMax l := by
  cases l with
  | nil => cases ha
  | cons x t =>
      rcases List.mem_cons.mp ha with rfl | ha
      · exact init_le_foldl_max t a
      · exact mem_le_foldl_max t x a ha

/-- The hit map holds, at each exact (wire, tick) key, exactly the last
input hit with that key (last-write-wins). -/
theorem buildHitMap_lastwins (hits : List Hit) (w t : ℤ) :
    buildHitMap hits w t =
      (hits.filter fun h2 => decide (h2.wire = w ∧ h2.tick = t)).getLast? := by
  induction hits using List.reverseRecOn with
  | nil => rfl
  | append_singleton l a ih =>
      rw [buildHitMap, List.foldl_append]
      show (if w = a.wire ∧ t = a.tick then some a else buildHitMap l w t) = _
      rw [List.filter_append]
      by_cases hk : a.wire = w ∧ a.tick = t
      · rw [if_pos ⟨hk.1.symm, hk.2.symm⟩]
        have : List.filter (fun h2 => decide (h2.wire = w ∧ h2.tick = t)) [a] = [a] := by
          simp [hk]
        rw [this, List.getLast?_concat]
      · have hk' : ¬ (w = a.wire ∧ t = a.tick) := fun hyp => hk ⟨hyp.1.symm, hyp.2.symm⟩
        rw [if_neg hk']
        have : List.filter (fun h2 => decide (h2.wire = w ∧ h2.tick = t)) [a] = [] := by
          simp [hk]
        rw [this, List.append_nil]
        exact ih

/-- Image value at global (wire, tick) coordinates, through the origin
offset (spec §3 Image). -/
def imageAt (img : Image) (w t : ℤ) : ℚ :=
  imageVal img.data (w - img.lowWire) (t - img.lowTick)

/-- Value of a charge-accumulation grid at an in-range global coordinate:
the sum of the charges of all hits with exactly that (wire, tick) key. -/
theorem grid_value (hs : List Hit) (lw lt : ℤ) (W H : ℕ) (w t : ℤ)
    (hx0 : 0 ≤ w - lw) (hxW : (w - lw).toNat < W)
    (hy0 : 0 ≤ t - lt) (hyH : (t - lt).toNat < H) :
    imageVal ((List.range W).map fun x : ℕ => (List.range H).map fun y : ℕ =>
        ((hs.filter fun h => h.wire = lw + (x : ℤ) ∧ h.tick = lt + (y : ℤ)).map
          Hit.charge).sum)
      (w - lw) (t - lt) =
      ((hs.filter fun h => decide (h.wire = w ∧ h.tick = t)).map Hit.charge).sum := by
  unfold imageVal
  rw [if_pos ⟨hx0, hy0⟩, getD_map_range _ _ _ _ hxW, getD_map_range _ _ _ _ hyH]
  have e1 : lw + ((w - lw).toNat : ℤ) = w := by omega
  have e2 : lt + ((t - lt).toNat : ℤ) = t := by omega
  simp only [e1, e2]

/-- The hit-map component of the image-construction step is `buildHitMap`. -/
theorem convert_snd (bw bt : ℕ) (hits : List Hit) :
    (ConvertRecobHitsToTH2 bw bt hits).2 = buildHitMap hits := by
  cases hits <;> rfl

/-- C9: bin collisions are treated differently by the two structures built
by the same image-construction step `ConvertRecobHitsToTH2`: the image
accumulates charges (the value at a hit's key is the SUM of the charges of
all hits with that exact key), while the hit map keeps at most one hit per
exact (wire, tick) key, the LAST one written. -/
theorem image_accumulates_hitmap_lastwins (bw bt : ℕ) (hits : List Hit) (w t : ℤ) :
    (∀ h ∈ hits, imageAt (ConvertRecobHitsToTH2 bw bt hits).1 h.wire h.tick =
      ((hits.filter fun h2 => decide (h2.wire = h.wire ∧ h2.tick = h.tick)).map
        Hit.charge).sum) ∧
    (ConvertRecobHitsToTH2 bw bt hits).2 w t =
      (hits.filter fun h2 => decide (h2.wire = w ∧ h2.tick = t)).getLast? := by
  constructor
  · intro h hh
    cases hits with
    | nil => cases hh
    | cons a l =>
        have hw1 : listMin ((a :: l).map Hit.wire) ≤ h.wire :=
          listMin_le _ _ (List.mem_map_of_mem _ hh)
        have hw2 : h.wire ≤ listMax ((a :: l).map Hit.wire) :=
          le_listMax _ _ (List.mem_map_of_mem _ hh)
        have ht1 : listMin ((a :: l).map Hit.tick) ≤ h.tick :=
          listMin_le _ _ (List.mem_map_of_mem _ hh)
        have ht2 : h.tick ≤ listMax ((a :: l).map Hit.tick) :=
          le_listMax _ _ (List.mem_map_of_mem _ hh)
        have hunf : (ConvertRecobHitsToTH2 bw bt (a :: l)).1 =
            ⟨listMin ((a :: l).map Hit.wire) - bw, listMin ((a :: l).map Hit.tick) - bt,
              (List.range ((listMax ((a :: l).map Hit.wire) + bw + 1 -
                  (listMin ((a :: l).map Hit.wire) - bw)).toNat)).map fun x : ℕ =>
                (List.range ((listMax ((a :: l).map Hit.tick) + bt + 1 -
                    (listMin ((a :: l).map Hit.tick) - bt)).toNat)).map fun y : ℕ =>
                  (((a :: l).filter fun h2 =>
                      h2.wire = (listMin ((a :: l).map Hit.wire) - bw) + (x : ℤ) ∧
                      h2.tick = (listMin ((a :: l).map Hit.tick) - bt) + (y : ℤ)).map
                    Hit.charge).sum⟩ := rfl
        rw [hunf, imageAt]
        exact grid_value (a :: l) _ _ _ _ h.wire h.tick
          (by omega) (by omega) (by omega) (by omega)
  · rw [convert_snd, buildHitMap_lastwins]

/-- Witness for C9: two hits colliding in one bin; the image holds their
summed charge while the hit map keeps only the second. -/
theorem image_accumulates_hitmap_lastwins_witness :
    imageAt (ConvertRecobHitsToTH2 1 1 [⟨3, 4, 5⟩, ⟨3, 4, 7⟩]).1 3 4 = 12 ∧
    (ConvertRecobHitsToTH2 1 1 [⟨3, 4, 5⟩, ⟨3, 4, 7⟩]).2 3 4 = some ⟨3, 4, 7⟩ := by
  have h := image_accumulates_hitmap_lastwins 1 1 [⟨3, 4, 5⟩, ⟨3, 4, 7⟩] 3 4
  constructor
  · have h1 := h.1 ⟨3, 4, 5⟩ (by decide)
    rw [h1]
    have hfil : ([⟨3, 4, 5⟩, ⟨3, 4, 7⟩] : List Hit).filter
        (fun h2 => decide (h2.wire = (⟨3, 4, 5⟩ : Hit).wire ∧
          h2.tick = (⟨3, 4, 5⟩ : Hit).tick)) = [⟨3, 4, 5⟩, ⟨3, 4, 7⟩] := by decide
    rw [hfil]
    show (5 : ℚ) + (7 + 0) = 12
    norm_num
  · rw [h.2]
    decide

/-- A hit produced by a hit-map lookup is one of the original input hits. -/
theorem buildHitMap_some_mem {hits : List Hit} {w t : ℤ} {h : Hit}
    (hl : buildHitMap hits w t = some h) : h ∈ hits := by
  rw [buildHitMap_lastwins] at hl
  have hmem : h ∈ (hits.filter fun h2 => decide (h2.wire = w ∧ h2.tick = t)).getLast? :=
    Option.mem_def.mpr hl
  obtain ⟨hne, heq⟩ := List.mem_getLast?_eq_getLast hmem
  exact List.mem_of_mem_filter (heq ▸ List.getLast_mem hne)

/-- C8: every hit-cluster produced from a bin-cluster through the hit map
built by the image-construction step is a subset of the original input
hits; each output cluster is exactly the exact-key lookups of its
bin-cluster's bins, bins with no originating hit contributing nothing. -/
theorem hit_clusters_subset (bw bt : ℕ) (hits : List Hit) (cs : List (List ℕ)) :
    ∀ hc ∈ ConvertBinsToClusters (ConvertRecobHitsToTH2 bw bt hits).1
        (ConvertRecobHitsToTH2 bw bt hits).2 cs,
      (∃ c ∈ cs, hc = c.filterMap fun b =>
        ConvertBinToRecobHit (ConvertRecobHitsToTH2 bw bt hits).1
          (ConvertRecobHitsToTH2 bw bt hits).2 b) ∧
      ∀ ht ∈ hc, ht ∈ hits := by
  intro hc hhc
  obtain ⟨c, hcin, hceq⟩ := List.mem_map.mp hhc
  refine ⟨⟨c, hcin, hceq.symm⟩, ?_⟩
  intro ht hht
  rw [← hceq] at hht
  obtain ⟨b, _, hlook⟩ := List.mem_filterMap.mp hht
  rw [ConvertBinToRecobHit, convert_snd] at hlook
  exact buildHitMap_some_mem hlook

/-- Witness for C8: a single hit at (0,0), a bin-cluster containing bin 0
and a stray bin 5 with no originating hit; the output hit-cluster is
exactly the input hit. -/
theorem hit_clusters_subset_witness :
    (⟨0, 0, 5⟩ : Hit) ∈ [(⟨0, 0, 5⟩ : Hit)] ∧ (⟨0, 0, 5⟩ : Hit) ∈ [(⟨0, 0, 5⟩ : Hit)] := by
  have h := hit_clusters_subset 0 0 [⟨0, 0, 5⟩] [[0, 5]]
  have hm := (h [⟨0, 0, 5⟩] (by decide)).2 ⟨0, 0, 5⟩ (by decide)
  exact ⟨hm, hm⟩

/-- C10: the pipeline is a total function of its input; in the degenerate
case of an empty hit collection the image-construction step yields an
empty image and the full pipeline yields no clusters. -/
theorem pipeline_empty_input (kernel : List (List ℚ)) (bw bt : ℕ) (p : ExtractParams)
    (linear : List ℕ → Bool) (minMerge : ℕ) :
    (ConvertRecobHitsToTH2 bw bt []).1.data = [] ∧
    FullPipeline kernel bw bt p linear minMerge [] = [] := by
  constructor
  · rfl
  · rfl

/-- A shifted sum over an initial segment as an integer-interval sum. -/
theorem sum_range_shift (f : ℤ → ℚ) (w : ℕ) (d : ℤ) :
    ∑ x in Finset.range w, f (↑x + d) = ∑ x in Finset.Ico d (↑w + d), f x := by
  induction w with
  | zero => simp
  | succ w ih =>
      rw [Finset.sum_range_succ, ih]
      have h1 : (↑(w + 1) : ℤ) + d = (↑w + d) + 1 := by push_cast; ring
      have h2 : Finset.Ico d ((↑w : ℤ) + d + 1) = insert ((↑w : ℤ) + d) (Finset.Ico d (↑w + d)) := by
        ext x
        simp only [Finset.mem_Ico, Finset.mem_insert]
        omega
      rw [h1, h2, Finset.sum_insert (by simp)]
      ring

/-- An interval sum only depends on the support interval it contains. -/
theorem sum_Ico_of_support (f : ℤ → ℚ) (lo hi c d : ℤ)
    (hsupp : ∀ x, f x ≠ 0 → lo ≤ x ∧ x < hi) (hc : c ≤ lo) (hd : hi ≤ d) :
    ∑ x in Finset.Ico c d, f x = ∑ x in Finset.Ico lo hi, f x := by
  symm
  apply Finset.sum_subset (Finset.Ico_subset_Ico hc hd)
  intro x _ hnx
  by_contra hne
  obtain ⟨h1, h2⟩ := hsupp x hne
  exact hnx (Finset.mem_Ico.mpr ⟨h1, h2⟩)

/-- A shifted segment sum of a compactly supported function equals the
unshifted one, provided the shift keeps the support inside the segment. -/
theorem sum_range_shift_of_support (f : ℤ → ℚ) (w : ℕ) (lo hi d : ℤ)
    (hsupp : ∀ x, f x ≠ 0 → lo ≤ x ∧ x < hi)
    (hdlo : d ≤ lo) (hhid : hi ≤ ↑w + d) (hlo0 : 0 ≤ lo) (hhiw : hi ≤ ↑w) :
    ∑ x in Finset.range w, f (↑x + d) = ∑ x in Finset.range w, f ↑x := by
  have hbase : ∑ x in Finset.range w, f ↑x = ∑ x in Finset.Ico (0 : ℤ) ↑w, f x := by
    have := sum_range_shift f w 0
    simpa using this
  rw [sum_range_shift, hbase,
    sum_Ico_of_support f lo hi d (↑w + d) hsupp hdlo hhid,
    sum_Ico_of_support f lo hi 0 ↑w hsupp hlo0 hhiw]

/-- `imageVal` at natural coordinates is the plain nested `getD` read. -/
theorem imageVal_natCast (img : List (List ℚ)) (x y : ℕ) :
    imageVal img ↑x ↑y = (img.getD x []).getD y 0 := by
  unfold imageVal
  rw [if_pos ⟨Int.natCast_nonneg x, Int.natCast_nonneg y⟩]
  simp

/-- An in-range row of an image is one of its member lists. -/
theorem getD_mem_of_lt {α : Type} (l : List α) (x : ℕ) (d : α) (hx : x < l.length) :
    l.getD x d ∈ l := by
  rw [List.getD_eq_getElem?_getD, List.getElem?_eq_getElem hx]
  exact List.getElem_mem hx

/-- Total density of a rectangular image as an iterated `Finset` sum. -/
theorem totalSum_eq (img : List (List ℚ)) (hrect : ∀ r ∈ img, r.length = height img) :
    totalSum img = ∑ x in Finset.range img.length, ∑ y in Finset.range (height img),
      imageVal img ↑x ↑y := by
  unfold totalSum
  rw [list_sum_eq_getD, List.length_map]
  refine Finset.sum_congr rfl fun x hx => ?_
  rw [Finset.mem_range] at hx
  have h1 : (img.map List.sum).getD x 0 = (img.getD x []).sum := by
    rw [List.getD_eq_getElem?_getD, List.getElem?_map, List.getD_eq_getElem?_getD,
      List.getElem?_eq_getElem hx]
    rfl
  rw [h1, list_sum_eq_getD, hrect _ (getD_mem_of_lt img x [] hx)]
  refine Finset.sum_congr rfl fun y _ => ?_
  rw [imageVal_natCast]

/-- Total density of a convolved rectangular image as an iterated sum of
the convolution formula. -/
theorem totalSum_convolve_eq (img kernel : List (List ℚ)) (bw bt : ℕ)
    (hrect : ∀ r ∈ img, r.length = height img) :
    totalSum (Convolve img kernel bw bt) =
      ∑ x in Finset.range img.length, ∑ y in Finset.range (height img),
        convVal img kernel bw bt x y := by
  unfold totalSum Convolve
  rw [List.map_map]
  have h1 : (List.sum ∘ fun x =>
      (List.range (img.getD x []).length).map fun y => convVal img kernel bw bt x y) =
      fun x => ∑ y in Finset.range (img.getD x []).length, convVal img kernel bw bt x y := by
    funext x
    exact sum_map_range _ _
  rw [h1, sum_map_range]
  refine Finset.sum_congr rfl fun x hx => ?_
  rw [Finset.mem_range] at hx
  rw [hrect _ (getD_mem_of_lt img x [] hx)]

/-- C5: convolving an image whose nonzero charge lies at least the kernel
radius away from every edge with a normalised kernel preserves the total
density sum exactly. -/
theorem Convolve_conserves_charge (img kernel : List (List ℚ)) (bw bt : ℕ)
    (hrect : ∀ r ∈ img, r.length = height img)
    (hker : ∑ i in Finset.range (2 * bw + 1), ∑ j in Finset.range (2 * bt + 1),
      kAt kernel i j = 1)
    (hsupp : ∀ x y : ℤ, imageVal img x y ≠ 0 →
      (bw : ℤ) ≤ x ∧ x < (img.length : ℤ) - bw ∧
      (bt : ℤ) ≤ y ∧ y < (height img : ℤ) - bt) :
    totalSum (Convolve img kernel bw bt) = totalSum img := by
  rw [totalSum_convolve_eq img kernel bw bt hrect, totalSum_eq img hrect]
  have hshift : ∀ i ∈ Finset.range (2 * bw + 1), ∀ j ∈ Finset.range (2 * bt + 1),
      ∑ x in Finset.range img.length, ∑ y in Finset.range (height img),
        imageVal img (↑x + ↑i - ↑bw) (↑y + ↑j - ↑bt) =
      ∑ x in Finset.range img.length, ∑ y in Finset.range (height img),
        imageVal img ↑x ↑y := by
    intro i hi j hj
    rw [Finset.mem_range] at hi hj
    have hinner : ∀ u : ℤ,
        ∑ y in Finset.range (height img), imageVal img u (↑y + (↑j - ↑bt)) =
        ∑ y in Finset.range (height img), imageVal img u ↑y := by
      intro u
      apply sum_range_shift_of_support (fun y => imageVal img u y) (height img)
        ↑bt ((height img : ℤ) - ↑bt) (↑j - ↑bt)
      · intro y hy
        exact ⟨(hsupp u y hy).2.2.1, (hsupp u y hy).2.2.2⟩
      · omega
      · omega
      · omega
      · omega
    have hcongr1 : ∑ x in Finset.range img.length, ∑ y in Finset.range (height img),
        imageVal img (↑x + ↑i - ↑bw) (↑y + ↑j - ↑bt) =
        ∑ x in Finset.range img.length,
          ∑ y in Finset.range (height img), imageVal img (↑x + (↑i - ↑bw)) ↑y := by
      refine Finset.sum_congr rfl fun x _ => ?_
      have e1 : (↑x + ↑i - ↑bw : ℤ) = ↑x + (↑i - ↑bw) := by ring
      rw [e1]
      have e3 : ∑ y in Finset.range (height img),
          imageVal img (↑x + (↑i - ↑bw)) (↑y + ↑j - ↑bt) =
          ∑ y in Finset.range (height img),
            imageVal img (↑x + (↑i - ↑bw)) (↑y + (↑j - ↑bt)) := by
        refine Finset.sum_congr rfl fun y _ => ?_
        have e2 : (↑y + ↑j - ↑bt : ℤ) = ↑y + (↑j - ↑bt) := by ring
        rw [e2]
      rw [e3, hinner]
    rw [hcongr1]
    have houter := sum_range_shift_of_support
      (fun u => ∑ y in Finset.range (height img), imageVal img u ↑y) img.length
      ↑bw ((img.length : ℤ) - ↑bw) (↑i - ↑bw)
      (fun u hu => by
        obtain ⟨y, _, hVy⟩ := Finset.exists_ne_zero_of_sum_ne_zero hu
        exact ⟨(hsupp u ↑y hVy).1, (hsupp u ↑y hVy).2.1⟩)
      (by omega) (by omega) (by omega) (by omega)
    exact houter
  calc
    ∑ x in Finset.range img.length, ∑ y in Finset.range (height img),
        convVal img kernel bw bt x y
      = ∑ p in Finset.range img.length ×ˢ Finset.range (height img),
          convVal img kernel bw bt p.1 p.2 := (Finset.sum_product' _ _ _).symm
    _ = ∑ p in Finset.range img.length ×ˢ Finset.range (height img),
          ∑ q in Finset.range (2 * bw + 1) ×ˢ Finset.range (2 * bt + 1),
            kAt kernel q.1 q.2 *
              imageVal img (↑p.1 + ↑q.1 - ↑bw) (↑p.2 + ↑q.2 - ↑bt) := by
        refine Finset.sum_congr rfl fun p _ => ?_
        rw [convVal, ← Finset.sum_product']
    _ = ∑ q in Finset.range (2 * bw + 1) ×ˢ Finset.range (2 * bt + 1),
          ∑ p in Finset.range img.length ×ˢ Finset.range (height img),
            kAt kernel q.1 q.2 *
              imageVal img (↑p.1 + ↑q.1 - ↑bw) (↑p.2 + ↑q.2 - ↑bt) :=
        Finset.sum_comm
    _ = ∑ q in Finset.range (2 * bw + 1) ×ˢ Finset.range (2 * bt + 1),
          kAt kernel q.1 q.2 *
            ∑ p in Finset.range img.length ×ˢ Finset.range (height img),
              imageVal img (↑p.1 + ↑q.1 - ↑bw) (↑p.2 + ↑q.2 - ↑bt) := by
        refine Finset.sum_congr rfl fun q _ => ?_
        rw [Finset.mul_sum]
    _ = ∑ q in Finset.range (2 * bw + 1) ×ˢ Finset.range (2 * bt + 1),
          kAt kernel q.1 q.2 *
            ∑ x in Finset.range img.length, ∑ y in Finset.range (height img),
              imageVal img ↑x ↑y := by
        refine Finset.sum_congr rfl fun q hq => ?_
        rw [Finset.mem_product] at hq
        congr 1
        rw [Finset.sum_product'
          (f := fun x y : ℕ => imageVal img (↑x + ↑q.1 - ↑bw) (↑y + ↑q.2 - ↑bt))]
        exact hshift q.1 hq.1 q.2 hq.2
    _ = (∑ q in Finset.range (2 * bw + 1) ×ˢ Finset.range (2 * bt + 1),
          kAt kernel q.1 q.2) *
            (∑ x in Finset.range img.length, ∑ y in Finset.range (height img),
              imageVal img ↑x ↑y) := (Finset.sum_mul _ _ _).symm
    _ = ∑ x in Finset.range img.length, ∑ y in Finset.range (height img),
          imageVal img ↑x ↑y := by
        rw [Finset.sum_product' (f := fun i j : ℕ => kAt kernel i j), hker, one_mul]

/-- Witness for C5: a one-bin image with interior charge 5 convolved with
the trivial normalised kernel keeps total density 5. -/
theorem Convolve_conserves_charge_witness :
    totalSum (Convolve [[(5 : ℚ)]] [[(1 : ℚ)]] 0 0) = totalSum [[(5 : ℚ)]] := by
  apply Convolve_conserves_charge
  · intro r hr
    rw [List.mem_singleton] at hr
    subst hr
    rfl
  · norm_num [Finset.sum_range_one, kAt]
  · intro x y h
    rw [imageVal] at h
    by_cases hpos : 0 ≤ x ∧ 0 ≤ y
    · rw [if_pos hpos] at h
      have hx1 : x.toNat < 1 := by
        by_contra hge
        rw [List.getD_eq_default [[(5 : ℚ)]] []
          (by simpa using Nat.le_of_not_lt hge)] at h
        simp at h
      have hy1 : y.toNat < 1 := by
        by_contra hge
        have hx2 : x.toNat = 0 := by omega
        rw [hx2] at h
        have hrow : ([[(5 : ℚ)]].getD 0 []) = [5] := rfl
        rw [hrow, List.getD_eq_default [(5 : ℚ)] 0
          (by simpa using Nat.le_of_not_lt hge)] at h
        exact h rfl
      obtain ⟨hx0, hy0⟩ := hpos
      exact ⟨by omega, by simp; omega, by omega, by simp [height]; omega⟩
    · rw [if_neg hpos] at h
      exact absurd rfl h

/-- The closure step keeps lists duplicate-free. -/
theorem reachStep_nodup (n : ℕ) (e : ℕ → ℕ → Bool) (S : List ℕ) (h : S.Nodup) :
    (reachStep n e S).Nodup := by
  rw [reachStep, List.nodup_append]
  refine ⟨h, List.Nodup.filter _ (List.nodup_range n), ?_⟩
  intro a ha hb
  have := List.mem_filter.mp hb
  simp only [Bool.and_eq_true, decide_eq_true_eq] at this
  exact this.2.1 ha

/-- Closure-step members are old members or below the index bound. -/
theorem reachStep_mem_bound (n : ℕ) (e : ℕ → ℕ → Bool) (S : List ℕ) :
    ∀ x ∈ reachStep n e S, x ∈ S ∨ x < n := by
  intro x hx
  rcases List.mem_append.mp hx with hx | hx
  · exact Or.inl hx
  · exact Or.inr (List.mem_range.mp (List.mem_of_mem_filter hx))

/-- A fixed point of the closure step stays fixed under iteration. -/
theorem iterate_of_stable (n : ℕ) (e : ℕ → ℕ → Bool) (S : List ℕ)
    (h : reachStep n e S = S) (k : ℕ) : (reachStep n e)^[k] S = S := by
  induction k with
  | zero => rfl
  | succ k ih => rw [Function.iterate_succ_apply, h, ih]

/-- A non-fixed closure step strictly grows the list. -/
theorem reachStep_grows (n : ℕ) (e : ℕ → ℕ → Bool) (S : List ℕ)
    (h : reachStep n e S ≠ S) : S.length < (reachStep n e S).length := by
  rw [reachStep] at h ⊢
  rw [List.length_append]
  rcases Nat.eq_zero_or_pos ((List.range n).filter fun j =>
      decide (j ∉ S) && S.any fun k => e k j).length with hz | hp
  · exact absurd (by rw [List.length_eq_zero] at hz; rw [hz, List.append_nil]) h
  · omega

/-- With fuel `n`, closure from a single index below `n` saturates. -/
theorem reach_stable (n : ℕ) (e : ℕ → ℕ → Bool) (i : ℕ) (hi : i < n) :
    reachStep n e (reach n e i) = reach n e i := by
  have hnodup : ∀ k, ((reachStep n e)^[k] [i]).Nodup := by
    intro k
    induction k with
    | zero => exact List.nodup_singleton i
    | succ k ih => rw [Function.iterate_succ_apply']; exact reachStep_nodup n e _ ih
  have hbound : ∀ k, ∀ x ∈ (reachStep n e)^[k] [i], x < n := by
    intro k
    induction k with
    | zero =>
        intro x hx
        rw [Function.iterate_zero_apply, List.mem_singleton] at hx
        omega
    | succ k ih =>
        intro x hx
        rw [Function.iterate_succ_apply'] at hx
        rcases reachStep_mem_bound n e _ x hx with hx | hx
        · exact ih x hx
        · exact hx
  have hlen : ∀ k, ((reachStep n e)^[k] [i]).length ≤ n := by
    intro k
    have := List.Subperm.length_le
      (List.subperm_of_subset (hnodup k)
        (fun x hx => List.mem_range.mpr (hbound k x hx)))
    simpa using this
  have hgrow : ∀ k, (∀ j < k, reachStep n e ((reachStep n e)^[j] [i]) ≠ (reachStep n e)^[j] [i]) →
      k + 1 ≤ ((reachStep n e)^[k] [i]).length := by
    intro k
    induction k with
    | zero => intro _; simp
    | succ k ih =>
        intro hall
        have h1 := ih fun j hj => hall j (Nat.lt_succ_of_lt hj)
        have h2 := reachStep_grows n e _ (hall k (Nat.lt_succ_self k))
        rw [Function.iterate_succ_apply']
        omega
  have hex : ∃ j, j < n ∧ reachStep n e ((reachStep n e)^[j] [i]) = (reachStep n e)^[j] [i] := by
    by_contra hno
    push_neg at hno
    have := hgrow n fun j hj => hno j hj
    have := hlen n
    omega
  obtain ⟨j, hj, hst⟩ := hex
  have hsplit : (reachStep n e)^[n] [i] = (reachStep n e)^[n - j] ((reachStep n e)^[j] [i]) := by
    rw [← Function.iterate_add_apply]
    congr 1
    omega
  have hnj : (reachStep n e)^[n] [i] = (reachStep n e)^[j] [i] := by
    rw [hsplit]
    exact iterate_of_stable n e _ hst (n - j)
  rw [reach, hnj]
  exact hst

/-- Any index below the bound connected to a member of a saturated set is
itself a member. -/
theorem stable_closed (n : ℕ) (e : ℕ → ℕ → Bool) (R : List ℕ)
    (hst : reachStep n e R = R) (j : ℕ) (hj : j < n)
    (hex : ∃ k ∈ R, e k j = true) : j ∈ R := by
  rw [reachStep] at hst
  have hfil : ((List.range n).filter fun j => decide (j ∉ R) && R.any fun k => e k j) = [] := by
    have hlen := congrArg List.length hst
    rw [List.length_append] at hlen
    rw [← List.length_eq_zero]
    omega
  rw [List.filter_eq_nil_iff] at hfil
  have := hfil j (List.mem_range.mpr hj)
  simp only [Bool.and_eq_true, decide_eq_true_eq, List.any_eq_true, not_and, not_exists] at this
  by_contra hnj
  obtain ⟨k, hk, hek⟩ := hex
  have h2 := this hnj
  push_neg at h2
  exact (h2 k hk) hek

/-- C7: cluster merging is transitive and order-independent: for three
merge-eligible clusters A, B, C where the A–B pair and the B–C pair each
pass the linearity test (nothing assumed about A–C), the result is one
single merged cluster holding all three clusters' bins; and clusters below
the minimum-merge-size threshold always pass through unmodified. -/
theorem mergeClusters_transitive (linear : List ℕ → Bool) (minMerge : ℕ)
    (A B C : List ℕ)
    (hA : minMerge ≤ A.length) (hB : minMerge ≤ B.length) (hC : minMerge ≤ C.length)
    (h1 : linear (A ++ B) = true) (h2 : linear (B ++ C) = true) :
    mergeClusters linear minMerge [A, B, C] = [A ++ B ++ C] ∧
    (∀ (cs : List (List ℕ)) (c : List ℕ),
      c ∈ cs → c.length < minMerge → c ∈ mergeClusters linear minMerge cs) := by
  constructor
  · have dA : decide (minMerge ≤ A.length) = true := decide_eq_true hA
    have dB : decide (minMerge ≤ B.length) = true := decide_eq_true hB
    have dC : decide (minMerge ≤ C.length) = true := decide_eq_true hC
    have helig : ([A, B, C].filter fun c => decide (minMerge ≤ c.length)) = [A, B, C] := by
      simp [List.filter_cons, dA, dB, dC]
    have hsmall : ([A, B, C].filter fun c => decide (c.length < minMerge)) = [] := by
      rw [List.filter_eq_nil_iff]
      intro a ha
      simp only [decide_eq_true_eq]
      rcases List.mem_cons.mp ha with rfl | ha
      · omega
      rcases List.mem_cons.mp ha with rfl | ha
      · omega
      rcases List.mem_cons.mp ha with rfl | ha
      · omega
      · cases ha
    have e01 : mergeEdge linear [A, B, C] 0 1 = true := by
      simp [mergeEdge, h1]
    have e10 : mergeEdge linear [A, B, C] 1 0 = true := by
      simp [mergeEdge, h1]
    have e12 : mergeEdge linear [A, B, C] 1 2 = true := by
      simp [mergeEdge, h2]
    have e21 : mergeEdge linear [A, B, C] 2 1 = true := by
      simp [mergeEdge, h2]
    have hst0 := reach_stable 3 (mergeEdge linear [A, B, C]) 0 (by omega)
    have hst1 := reach_stable 3 (mergeEdge linear [A, B, C]) 1 (by omega)
    have hst2 := reach_stable 3 (mergeEdge linear [A, B, C]) 2 (by omega)
    have m00 := mem_reach_self 3 (mergeEdge linear [A, B, C]) 0
    have m11 := mem_reach_self 3 (mergeEdge linear [A, B, C]) 1
    have m22 := mem_reach_self 3 (mergeEdge linear [A, B, C]) 2
    have m01 : 1 ∈ reach 3 (mergeEdge linear [A, B, C]) 0 :=
      stable_closed 3 _ _ hst0 1 (by omega) ⟨0, m00, e01⟩
    have m02 : 2 ∈ reach 3 (mergeEdge linear [A, B, C]) 0 :=
      stable_closed 3 _ _ hst0 2 (by omega) ⟨1, m01, e12⟩
    have m10 : 0 ∈ reach 3 (mergeEdge linear [A, B, C]) 1 :=
      stable_closed 3 _ _ hst1 0 (by omega) ⟨1, m11, e10⟩
    have m21 : 1 ∈ reach 3 (mergeEdge linear [A, B, C]) 2 :=
      stable_closed 3 _ _ hst2 1 (by omega) ⟨2, m22, e21⟩
    have m20 : 0 ∈ reach 3 (mergeEdge linear [A, B, C]) 2 :=
      stable_closed 3 _ _ hst2 0 (by omega) ⟨1, m21, e10⟩
    have hg0 : ∀ j ∈ reach 3 (mergeEdge linear [A, B, C]) 0, 0 ≤ j :=
      fun j _ => Nat.zero_le j
    have hg1 : ¬ ∀ j ∈ reach 3 (mergeEdge linear [A, B, C]) 1, 1 ≤ j := by
      intro hall
      exact absurd (hall 0 m10) (by omega)
    have hg2 : ¬ ∀ j ∈ reach 3 (mergeEdge linear [A, B, C]) 2, 2 ≤ j := by
      intro hall
      exact absurd (hall 0 m20) (by omega)
    have hlen3 : ([A, B, C] : List (List ℕ)).length = 3 := rfl
    have hrange : List.range 3 = [0, 1, 2] := rfl
    simp only [mergeClusters, helig, hsmall, hlen3, hrange]
    simp [hg0, hg1, hg2, m00, m01, m02, List.getD]
  · intro cs c hc hlen
    simp only [mergeClusters]
    apply List.mem_append_left
    rw [List.mem_filter]
    exact ⟨hc, decide_eq_true hlen⟩

/-- Witness for C7: with an always-true linearity test, the three
singleton-bin clusters [0], [1], [2] coalesce into the single cluster
[0, 1, 2]; and an undersized cluster passes through a merge run unmodified. -/
theorem mergeClusters_transitive_witness :
    mergeClusters (fun _ => true) 1 [[0], [1], [2]] = [[0] ++ [1] ++ [2]] ∧
    [5] ∈ mergeClusters (fun _ => true) 2 [[0, 1], [5]] := by
  constructor
  · exact (mergeClusters_transitive (fun _ => true) 1 [0] [1] [2]
      (by decide) (by decide) (by decide) rfl rfl).1
  · exact (mergeClusters_transitive (fun _ => true) 2 [0, 1] [2, 3] [4, 5]
      (by decide) (by decide) (by decide) rfl rfl).2 [[0, 1], [5]] [5]
      (by decide) (by decide)

end BlurredClustering
